import Mathlib

/-!
Verification of the autolink core of the rinku repository
(`src/ext/rinku/autolink.c`) as a shallow embedding in Lean 4.

A text buffer is a `List Nat` of byte values (each in 0..255 for real
inputs; the classification functions below return `false` outside the
ASCII ranges, matching the default C locale).  Out-of-range reads,
which are undefined behaviour in the C source, are modelled by
`List.getD _ _ 0`.  C `size_t` arithmetic is modelled with `Nat`
subtraction; the two agree everywhere the C program's behaviour is
defined (the only divergence points are out-of-bounds reads).
-/

namespace Rinku

/-- Read a byte of the buffer; out-of-bounds reads (undefined behaviour in
the C source) default to 0. -/
def byte (d : List Nat) (i : Nat) : Nat := d.getD i 0

/-- C `isdigit` over ASCII. -/
def isdigit (c : Nat) : Bool := 48 ≤ c && c ≤ 57

/-- C `isalpha` over ASCII. -/
def isalpha (c : Nat) : Bool := (65 ≤ c && c ≤ 90) || (97 ≤ c && c ≤ 122)

/-- C `isalnum` over ASCII. -/
def isalnum (c : Nat) : Bool := isalpha c || isdigit c

/-- C `isspace` over ASCII. -/
def isspace (c : Nat) : Bool := c = 32 || (9 ≤ c && c ≤ 13)

/-- C `ispunct` over ASCII. -/
def ispunct (c : Nat) : Bool :=
  (33 ≤ c && c ≤ 47) || (58 ≤ c && c ≤ 64) || (91 ≤ c && c ≤ 96) || (123 ≤ c && c ≤ 126)

/-- C `tolower` over ASCII. -/
def tolower (c : Nat) : Nat := if 65 ≤ c && c ≤ 90 then c + 32 else c

/-- The C struct `autolink_pos`: a half-open span `[start, stop)` into the
buffer.  The C field `end` is a Lean keyword and is called `stop` here. -/
structure AutolinkPos where
  start : Nat
  stop : Nat
deriving DecidableEq, Repr

/-- Membership in the trimming set tested by `strchr("?!.,:", c) != NULL`
in `autolink_delim`.  Note that `strchr` also matches the terminating NUL
of the string constant, so byte value 0 is in the set. -/
def trimChar (c : Nat) : Bool := c = 63 || c = 33 || c = 46 || c = 44 || c = 58 || c = 0

/-- Membership in the local-part set tested by `strchr(".+-_", c) != NULL`
in `autolink__email`; as with `trimChar`, byte value 0 is matched via the
terminating NUL. -/
def localChar (c : Nat) : Bool := c = 46 || c = 43 || c = 45 || c = 95 || c = 0

/-- The backward walk `while (new_end > 0 && isalpha(data[new_end])) new_end--`
from the semicolon branch of `autolink_delim`, starting at the given index. -/
def walkAmp (d : List Nat) : Nat → Nat
  | 0 => 0
  | n + 1 => if isalpha (byte d (n + 1)) then walkAmp d n else n + 1

/-- The backward walk of `autolink__email` that moves `link->start` left
from `pos` while the preceding byte is alphanumeric or in `".+-_"` (or NUL). -/
def emailStart (d : List Nat) : Nat → Nat
  | 0 => 0
  | s + 1 => if isalnum (byte d s) || localChar (byte d s) then emailStart d s else s + 1

/-- The backward walk of `autolink__url` that rewinds `link->start` left
from `pos` while the preceding byte is alphabetic (capturing the scheme). -/
def urlStart (d : List Nat) : Nat → Nat
  | 0 => 0
  | s + 1 => if isalpha (byte d s) then urlStart d s else s + 1

/-- Fuelled scan for the first `<` in `[i, e)`; returns its index, or `e`
when none is found.  The wrapper `scanLt` supplies sufficient fuel. -/
def scanLtF (d : List Nat) (e : Nat) : Nat → Nat → Nat
  | 0, _ => e
  | f + 1, i =>
    if i < e then (if byte d i = 60 then i else scanLtF d e f (i + 1)) else e

/-- The initial loop of `autolink_delim`: truncate the span at the first
embedded `<`, if any. -/
def scanLt (d : List Nat) (s e : Nat) : Nat := scanLtF d e (e - s) s

/-- Fuelled form of the trimming `while` loop of `autolink_delim`.  Each
iteration strictly decreases `e`, so fuel `e` suffices. -/
def trimLoopF (d : List Nat) (s : Nat) : Nat → Nat → Nat
  | 0, e => e
  | f + 1, e =>
    if s < e then
      if trimChar (byte d (e - 1)) then trimLoopF d s f (e - 1)
      else if byte d (e - 1) = 59 then
        if walkAmp d (e - 2) < e - 2 ∧ byte d (walkAmp d (e - 2)) = 38 then
          trimLoopF d s f (walkAmp d (e - 2))
        else trimLoopF d s f (e - 1)
      else e
    else e

/-- The trimming `while` loop of `autolink_delim`: repeatedly drop a
trailing `? ! . , :` (or NUL) byte, or handle a trailing `;` as a possible
HTML character-reference terminator. -/
def trimLoop (d : List Nat) (s e : Nat) : Nat := trimLoopF d s e e

/-- Fuelled forward extension over non-whitespace used by `autolink__www`
and `autolink__url`. -/
def extendNwsF (d : List Nat) (size : Nat) : Nat → Nat → Nat
  | 0, e => e
  | f + 1, e =>
    if e < size ∧ isspace (byte d e) = false then extendNwsF d size f (e + 1) else e

/-- The loop `while (link->end < size && !isspace(data[link->end])) link->end++`. -/
def extendNws (d : List Nat) (size e : Nat) : Nat := extendNwsF d size (size - e) e

/-- Fuelled form of the scanning loop of `check_domain`: from index `i`,
walk forward while `i < size - 1` and the byte is `.`, alphanumeric or `-`,
counting the dots.  Returns the stopping index and the dot count. -/
def domainScanF (d : List Nat) (size : Nat) : Nat → Nat → Nat × Nat
  | 0, i => (i, 0)
  | f + 1, i =>
    if i < size - 1 then
      if byte d i = 46 then
        let r := domainScanF d size f (i + 1)
        (r.1, r.2 + 1)
      else if isalnum (byte d i) || byte d i = 45 then domainScanF d size f (i + 1)
      else (i, 0)
    else (i, 0)

/-- The scanning loop of `check_domain` with sufficient fuel. -/
def domainScan (d : List Nat) (size i : Nat) : Nat × Nat := domainScanF d size size i

/-- Fuelled form of the forward scan of `autolink__email`: from index `e`,
walk while the byte is alphanumeric, `@` (counted, first component), `.`
not at the last buffer position (counted, second component), `-` or `_`.
Returns `(stop, number of @, number of counted dots)`. -/
def emailScanF (d : List Nat) (size : Nat) : Nat → Nat → Nat × Nat × Nat
  | 0, e => (e, 0, 0)
  | f + 1, e =>
    if e < size then
      if isalnum (byte d e) then emailScanF d size f (e + 1)
      else if byte d e = 64 then
        let r := emailScanF d size f (e + 1)
        (r.1, r.2.1 + 1, r.2.2)
      else if byte d e = 46 ∧ e < size - 1 then
        let r := emailScanF d size f (e + 1)
        (r.1, r.2.1, r.2.2 + 1)
      else if byte d e ≠ 45 ∧ byte d e ≠ 95 then (e, 0, 0)
      else emailScanF d size f (e + 1)
    else (e, 0, 0)

/-- The forward scan of `autolink__email` with sufficient fuel. -/
def emailScan (d : List Nat) (size e : Nat) : Nat × Nat × Nat :=
  emailScanF d size (size - e) e

/-- Number of occurrences of byte `c` in `[s, s + len)`. -/
def countOcc (d : List Nat) (c : Nat) : Nat → Nat → Nat
  | _, 0 => 0
  | s, len + 1 => (if byte d s = c then 1 else 0) + countOcc d c (s + 1) len

/-- The opener/closer counting loop of `autolink_delim` on `[s, s + len)`:
a byte equal to `copen` increments the first component, otherwise a byte
equal to `cclose` increments the second (mirroring the `if`/`else if`). -/
def countDelims (d : List Nat) (copen cclose : Nat) : Nat → Nat → Nat × Nat
  | _, 0 => (0, 0)
  | s, len + 1 =>
    let r := countDelims d copen cclose (s + 1) len
    if byte d s = copen then (r.1 + 1, r.2)
    else if byte d s = cclose then (r.1, r.2 + 1)
    else r

/-- The `switch` of `autolink_delim` mapping a closing delimiter to its
opener; 0 means the final byte is not a closing delimiter. -/
def copenOf (c : Nat) : Nat :=
  if c = 34 then 34
  else if c = 39 then 39
  else if c = 41 then 40
  else if c = 93 then 91
  else if c = 125 then 123
  else 0

/-- The one-shot bracket-balance step at the end of `autolink_delim`:
if the final byte of `[s, e)` is a closing delimiter and the counted
openings and closings inside the span differ, drop the final byte. -/
def bracketStep (d : List Nat) (s e : Nat) : Nat :=
  let copen := copenOf (byte d (e - 1))
  if copen = 0 then e
  else
    let r := countDelims d copen (byte d (e - 1)) s (e - s)
    if r.2 ≠ r.1 then e - 1 else e

/-- The function `autolink_delim`: truncate at an embedded `<`, run the
trimming loop, fail if the span collapsed, then apply the bracket step. -/
def autolink_delim (d : List Nat) (link : AutolinkPos) : Option AutolinkPos :=
  let e1 := trimLoop d link.start (scanLt d link.start link.stop)
  if e1 = link.start then none
  else some ⟨link.start, bracketStep d link.start e1⟩

/-- The function `check_domain`: fail if the first byte is not
alphanumeric, otherwise scan the domain characters; on success return the
new `end` offset.  With `allow_short` false, require at least one dot. -/
def check_domain (d : List Nat) (size : Nat) (link : AutolinkPos)
    (allow_short : Bool) : Option Nat :=
  if isalnum (byte d link.start) then
    let r := domainScan d size (link.start + 1)
    if allow_short then some r.1
    else if 0 < r.2 then some r.1 else none
  else none

/-- The five whitelisted scheme strings of `autolink_issafe`, as byte
lists: `/`, `http://`, `https://`, `ftp://`, `mailto:`. -/
def safeURIs : List (List Nat) :=
  [[47],
   [104, 116, 116, 112, 58, 47, 47],
   [104, 116, 116, 112, 115, 58, 47, 47],
   [102, 116, 112, 58, 47, 47],
   [109, 97, 105, 108, 116, 111, 58]]

/-- ASCII case-insensitive comparison of the first `p.length` bytes of
`link` against `p`, as performed by `strncasecmp`. -/
def matchCI (link p : List Nat) : Bool :=
  (List.range p.length).all fun k => tolower (byte link k) == tolower (byte p k)

/-- The function `autolink_issafe`: the slice is strictly longer than one
of the whitelisted scheme strings, begins with it case-insensitively, and
the byte immediately after it is alphanumeric. -/
def autolink_issafe (link : List Nat) (link_len : Nat) : Bool :=
  safeURIs.any fun p =>
    decide (p.length < link_len) && matchCI link p && isalnum (byte link p.length)

/-- Modelled from the spec: the constant `AUTOLINK_SHORT_DOMAINS` is
declared in `autolink.h`, which is not among the sources; the spec
describes Flags as a bit-set whose single bit of interest to the core is
"allow short domains", modelled here as the least-significant bit. -/
def AUTOLINK_SHORT_DOMAINS : Nat := 1

/-- Extraction of the short-domains bit `flags & AUTOLINK_SHORT_DOMAINS`. -/
def allowShort (flags : Nat) : Bool := decide (flags &&& AUTOLINK_SHORT_DOMAINS ≠ 0)

/-- The function `autolink__www`. -/
def autolink__www (d : List Nat) (pos size flags : Nat) : Option AutolinkPos :=
  if 0 < pos ∧ ispunct (byte d (pos - 1)) = false ∧ isspace (byte d (pos - 1)) = false then
    none
  else if size - pos < 4 ∨
      ¬(byte d pos = 119 ∧ byte d (pos + 1) = 119 ∧ byte d (pos + 2) = 119 ∧
        byte d (pos + 3) = 46) then
    none
  else
    match check_domain d size ⟨pos, 0⟩ false with
    | none => none
    | some e => autolink_delim d ⟨pos, extendNws d size e⟩

/-- The function `autolink__email`. -/
def autolink__email (d : List Nat) (pos size flags : Nat) : Option AutolinkPos :=
  if emailStart d pos = pos then none
  else
    let r := emailScan d size pos
    if r.1 - pos < 2 ∨ r.2.1 ≠ 1 ∨ r.2.2 = 0 then none
    else autolink_delim d ⟨emailStart d pos, r.1⟩

/-- The function `autolink__url` (precondition of the C source:
`data[pos]` is a colon, enforced there by an `assert`). -/
def autolink__url (d : List Nat) (pos size flags : Nat) : Option AutolinkPos :=
  if size - pos < 4 ∨ byte d (pos + 1) ≠ 47 ∨ byte d (pos + 2) ≠ 47 then none
  else
    match check_domain d size ⟨pos + 3, 0⟩ (allowShort flags) with
    | none => none
    | some e0 =>
      if autolink_issafe (List.drop (urlStart d pos) d) (size - urlStart d pos) then
        autolink_delim d ⟨urlStart d pos, extendNws d size e0⟩
      else none

end Rinku

namespace Rinku

/-! Basic lemmas about the backward walks. -/

lemma walkAmp_le (d : List Nat) (n : Nat) : walkAmp d n ≤ n := by
  induction n with
  | zero => simp [walkAmp]
  | succ m ih =>
    simp only [walkAmp]
    split
    · exact Nat.le_trans ih (Nat.le_succ m)
    · exact Nat.le_refl _

lemma walkAmp_stop (d : List Nat) (n : Nat) :
    walkAmp d n = 0 ∨ isalpha (byte d (walkAmp d n)) = false := by
  induction n with
  | zero => exact Or.inl rfl
  | succ m ih =>
    simp only [walkAmp]
    split
    · exact ih
    · rename_i h
      exact Or.inr (Bool.eq_false_iff.mpr h)

lemma walkAmp_between (d : List Nat) (n : Nat) :
    ∀ j, walkAmp d n < j → j ≤ n → isalpha (byte d j) = true := by
  induction n with
  | zero => intro j h1 h2; omega
  | succ m ih =>
    intro j h1 h2
    revert h1
    simp only [walkAmp]
    split
    · rename_i h
      intro h1
      rcases Nat.lt_or_ge j (m + 1) with hj | hj
      · exact ih j h1 (by omega)
      · have : j = m + 1 := by omega
        subst this; exact h
    · intro h1; omega

lemma walkAmp_ge (d : List Nat) (n p : Nat) (hp : p ≤ n)
    (ha : isalpha (byte d p) = false) : p ≤ walkAmp d n := by
  induction n with
  | zero => omega
  | succ m ih =>
    simp only [walkAmp]
    split
    · rename_i h
      have hpm : p ≠ m + 1 := by
        intro hc; subst hc; rw [h] at ha; cases ha
      exact ih (by omega)
    · exact hp

lemma emailStart_le (d : List Nat) (s : Nat) : emailStart d s ≤ s := by
  induction s with
  | zero => simp [emailStart]
  | succ m ih =>
    simp only [emailStart]
    split
    · exact Nat.le_trans ih (Nat.le_succ m)
    · exact Nat.le_refl _

lemma emailStart_all (d : List Nat) (s : Nat) :
    ∀ j, emailStart d s ≤ j → j < s → (isalnum (byte d j) || localChar (byte d j)) = true := by
  induction s with
  | zero => intro j h1 h2; omega
  | succ m ih =>
    intro j h1 h2
    revert h1
    simp only [emailStart]
    split
    · rename_i h
      intro h1
      rcases Nat.lt_or_ge j m with hj | hj
      · exact ih j h1 hj
      · have : j = m := by omega
        subst this; exact h
    · intro h1; omega

lemma urlStart_le (d : List Nat) (s : Nat) : urlStart d s ≤ s := by
  induction s with
  | zero => simp [urlStart]
  | succ m ih =>
    simp only [urlStart]
    split
    · exact Nat.le_trans ih (Nat.le_succ m)
    · exact Nat.le_refl _

lemma urlStart_all (d : List Nat) (s : Nat) :
    ∀ j, urlStart d s ≤ j → j < s → isalpha (byte d j) = true := by
  induction s with
  | zero => intro j h1 h2; omega
  | succ m ih =>
    intro j h1 h2
    revert h1
    simp only [urlStart]
    split
    · rename_i h
      intro h1
      rcases Nat.lt_or_ge j m with hj | hj
      · exact ih j h1 hj
      · have : j = m := by omega
        subst this; exact h
    · intro h1; omega

/-! Lemmas about the scan for an embedded angle bracket. -/

lemma scanLtF_le (d : List Nat) (e : Nat) :
    ∀ f i, scanLtF d e f i ≤ e := by
  intro f
  induction f with
  | zero => intro i; exact Nat.le_refl e
  | succ g ih =>
    intro i
    simp only [scanLtF]
    split
    · split
      · rename_i h _; exact Nat.le_of_lt h
      · exact ih (i + 1)
    · exact Nat.le_refl e

lemma scanLtF_ge (d : List Nat) (e : Nat) :
    ∀ f i, i ≤ e → i ≤ scanLtF d e f i := by
  intro f
  induction f with
  | zero => intro i h; exact h
  | succ g ih =>
    intro i h
    simp only [scanLtF]
    split
    · split
      · exact Nat.le_refl i
      · rename_i hlt _
        exact Nat.le_trans (Nat.le_succ i) (ih (i + 1) hlt)
    · exact h

lemma scanLtF_no_lt (d : List Nat) (e : Nat) :
    ∀ f i, e ≤ i + f → ∀ j, i ≤ j → j < scanLtF d e f i → byte d j ≠ 60 := by
  intro f
  induction f with
  | zero => intro i hf j h1 h2; simp only [scanLtF] at h2; omega
  | succ g ih =>
    intro i hf j h1 h2
    revert h2
    simp only [scanLtF]
    split
    · split
      · intro h2; omega
      · rename_i hlt hne
        intro h2
        rcases Nat.lt_or_ge i j with hij | hij
        · exact ih (i + 1) (by omega) j hij h2
        · have : j = i := by omega
          subst this; exact hne
    · intro h2; rename_i hlt; omega

lemma scanLtF_all (d : List Nat) (e : Nat) :
    ∀ f i, e ≤ i + f → (∀ j, i ≤ j → j < e → byte d j ≠ 60) → scanLtF d e f i = e := by
  intro f
  induction f with
  | zero => intro i hf hall; rfl
  | succ g ih =>
    intro i hf hall
    simp only [scanLtF]
    split
    · split
      · rename_i hlt h60
        exact absurd h60 (hall i (Nat.le_refl i) hlt)
      · exact ih (i + 1) (by omega) (fun j hj1 hj2 => hall j (by omega) hj2)
    · rfl

lemma scanLt_le (d : List Nat) (s e : Nat) : scanLt d s e ≤ e :=
  scanLtF_le d e (e - s) s

lemma scanLt_ge (d : List Nat) (s e : Nat) (h : s ≤ e) : s ≤ scanLt d s e :=
  scanLtF_ge d e (e - s) s h

lemma scanLt_gt (d : List Nat) (s e : Nat) (h : s < e) (h60 : byte d s ≠ 60) :
    s + 1 ≤ scanLt d s e := by
  unfold scanLt
  obtain ⟨k, hk⟩ : ∃ k, e - s = k + 1 := ⟨e - s - 1, by omega⟩
  rw [hk]
  simp only [scanLtF]
  rw [if_pos h, if_neg h60]
  exact scanLtF_ge d e k (s + 1) (by omega)

lemma scanLt_no_lt (d : List Nat) (s e : Nat) :
    ∀ j, s ≤ j → j < scanLt d s e → byte d j ≠ 60 :=
  scanLtF_no_lt d e (e - s) s (by omega)

lemma scanLt_all (d : List Nat) (s e : Nat)
    (hall : ∀ j, s ≤ j → j < e → byte d j ≠ 60) : scanLt d s e = e :=
  scanLtF_all d e (e - s) s (by omega) hall

end Rinku

namespace Rinku

/-! Lemmas about the trimming loop. -/

lemma trimLoopF_of_not_lt (d : List Nat) (s : Nat) (f e : Nat) (h : ¬ s < e) :
    trimLoopF d s f e = e := by
  cases f with
  | zero => rfl
  | succ g => simp only [trimLoopF]; rw [if_neg h]

lemma trimLoopF_le (d : List Nat) (s : Nat) :
    ∀ f e, trimLoopF d s f e ≤ e := by
  intro f
  induction f with
  | zero => intro e; exact Nat.le_refl e
  | succ g ih =>
    intro e
    simp only [trimLoopF]
    split
    · rename_i hse
      split
      · exact Nat.le_trans (ih (e - 1)) (by omega)
      · split
        · split
          · rename_i hj _
            exact Nat.le_trans (ih _) (by omega)
          · exact Nat.le_trans (ih (e - 1)) (by omega)
        · exact Nat.le_refl e
    · exact Nat.le_refl e

lemma trimLoopF_congr (d : List Nat) (s : Nat) :
    ∀ f1 f2 e, e ≤ f1 → e ≤ f2 → trimLoopF d s f1 e = trimLoopF d s f2 e := by
  intro f1
  induction f1 with
  | zero =>
    intro f2 e h1 h2
    have he : e = 0 := by omega
    subst he
    rw [trimLoopF_of_not_lt d s f2 0 (by omega)]
    rfl
  | succ g ih =>
    intro f2 e h1 h2
    by_cases hse : s < e
    · obtain ⟨g2, hg2⟩ : ∃ g2, f2 = g2 + 1 := ⟨f2 - 1, by omega⟩
      subst hg2
      simp only [trimLoopF]
      rw [if_pos hse, if_pos hse]
      split
      · exact ih g2 (e - 1) (by omega) (by omega)
      · split
        · split
          · rename_i hj _ _
            exact ih g2 _ (by omega) (by omega)
          · exact ih g2 (e - 1) (by omega) (by omega)
        · rfl
    · rw [trimLoopF_of_not_lt d s _ e hse, trimLoopF_of_not_lt d s f2 e hse]

lemma trimLoop_of_not_lt (d : List Nat) (s e : Nat) (h : ¬ s < e) :
    trimLoop d s e = e :=
  trimLoopF_of_not_lt d s e e h

lemma trimLoop_le (d : List Nat) (s e : Nat) : trimLoop d s e ≤ e :=
  trimLoopF_le d s e e

/-- Unfolding equation of the trimming loop, one iteration at a time. -/
lemma trimLoop_eq (d : List Nat) (s e : Nat) (h : s < e) :
    trimLoop d s e =
      if trimChar (byte d (e - 1)) then trimLoop d s (e - 1)
      else if byte d (e - 1) = 59 then
        if walkAmp d (e - 2) < e - 2 ∧ byte d (walkAmp d (e - 2)) = 38 then
          trimLoop d s (walkAmp d (e - 2))
        else trimLoop d s (e - 1)
      else e := by
  unfold trimLoop
  obtain ⟨g, hg⟩ : ∃ g, e = g + 1 := ⟨e - 1, by omega⟩
  conv_lhs => rw [hg]
  simp only [trimLoopF]
  rw [if_pos (hg ▸ h)]
  rw [← hg]
  split
  · exact trimLoopF_congr d s g (e - 1) (e - 1) (by omega) (by omega)
  · split
    · split
      · rename_i hj
        exact trimLoopF_congr d s g _ _ (by omega) (by omega)
      · exact trimLoopF_congr d s g (e - 1) (e - 1) (by omega) (by omega)
    · rfl

/-- The output of the trimming loop is a fixpoint condition: either the
span is empty, or its final byte is neither a trimmed punctuation byte nor
a semicolon. -/
lemma trimLoopF_done (d : List Nat) (s : Nat) :
    ∀ f e, e ≤ f →
      trimLoopF d s f e ≤ s ∨
        (trimChar (byte d (trimLoopF d s f e - 1)) = false ∧
          byte d (trimLoopF d s f e - 1) ≠ 59) := by
  intro f
  induction f with
  | zero =>
    intro e hf
    have he : e = 0 := by omega
    subst he
    exact Or.inl (by simp [trimLoopF])
  | succ g ih =>
    intro e hf
    simp only [trimLoopF]
    split
    · rename_i hse
      split
      · exact ih (e - 1) (by omega)
      · split
        · split
          · rename_i hj
            exact ih _ (by omega)
          · exact ih (e - 1) (by omega)
        · rename_i hc h59
          exact Or.inr ⟨Bool.eq_false_iff.mpr hc, h59⟩
    · rename_i hse
      exact Or.inl (by omega)

/-- A span satisfying the loop's exit condition is left unchanged. -/
lemma trimLoop_done_fix (d : List Nat) (s e : Nat)
    (h : e ≤ s ∨ (trimChar (byte d (e - 1)) = false ∧ byte d (e - 1) ≠ 59)) :
    trimLoop d s e = e := by
  rcases h with h | ⟨h1, h2⟩
  · exact trimLoop_of_not_lt d s e (by omega)
  · by_cases hse : s < e
    · rw [trimLoop_eq d s e hse, h1, if_neg (by simp), if_neg h2]
    · exact trimLoop_of_not_lt d s e hse

/-- Barrier lemma: if position `p ≥ s` holds a non-alphabetic byte and no
byte in `[s, p]` is a semicolon, the trimming loop never moves the end
below `s`: every semicolon jump lands at or after `p`. -/
lemma trimLoopF_ge (d : List Nat) (s p : Nat) (hsp : s ≤ p)
    (hpa : isalpha (byte d p) = false)
    (hsemi : ∀ i, s ≤ i → i ≤ p → byte d i ≠ 59) :
    ∀ f e, s ≤ e → s ≤ trimLoopF d s f e := by
  intro f
  induction f with
  | zero => intro e he; exact he
  | succ g ih =>
    intro e he
    simp only [trimLoopF]
    split
    · rename_i hse
      split
      · exact ih (e - 1) (by omega)
      · split
        · rename_i h59
          have hep : p < e - 1 := by
            by_contra hc
            exact hsemi (e - 1) (by omega) (by omega) h59
          have hw : p ≤ walkAmp d (e - 2) :=
            walkAmp_ge d (e - 2) p (by omega) hpa
          split
          · exact ih _ (by omega)
          · exact ih (e - 1) (by omega)
        · exact he
    · exact he

/-- Strict barrier lemma: when additionally the first byte of the span is
not trimmable (and `p` is strictly inside), the loop keeps the end
strictly above `s`, so `autolink_delim` cannot fail. -/
lemma trimLoopF_gt (d : List Nat) (s p : Nat) (hsp : s < p)
    (hpa : isalpha (byte d p) = false)
    (hsemi : ∀ i, s ≤ i → i ≤ p → byte d i ≠ 59)
    (htc : trimChar (byte d s) = false) :
    ∀ f e, s < e → s < trimLoopF d s f e := by
  intro f
  induction f with
  | zero => intro e he; exact he
  | succ g ih =>
    intro e he
    simp only [trimLoopF]
    rw [if_pos he]
    split
    · rename_i hc
      have h1 : e - 1 ≠ s := by
        intro hq
        rw [hq] at hc
        rw [htc] at hc
        cases hc
      exact ih (e - 1) (by omega)
    · split
      · rename_i h59
        have hep : p < e - 1 := by
          by_contra hcon
          exact hsemi (e - 1) (by omega) (by omega) h59
        have hw : p ≤ walkAmp d (e - 2) :=
          walkAmp_ge d (e - 2) p (by omega) hpa
        split
        · exact ih _ (by omega)
        · have h1 : e - 1 ≠ s := by
            intro hq
            exact hsemi s (Nat.le_refl s) (by omega) (hq ▸ h59)
          exact ih (e - 1) (by omega)
      · exact he

end Rinku

namespace Rinku

/-! Lemmas about the forward extension and the domain / email scans. -/

lemma extendNwsF_ge (d : List Nat) (size : Nat) :
    ∀ f e, e ≤ extendNwsF d size f e := by
  intro f
  induction f with
  | zero => intro e; exact Nat.le_refl e
  | succ g ih =>
    intro e
    simp only [extendNwsF]
    split
    · exact Nat.le_trans (Nat.le_succ e) (ih (e + 1))
    · exact Nat.le_refl e

lemma extendNwsF_le (d : List Nat) (size : Nat) :
    ∀ f e, e ≤ size → extendNwsF d size f e ≤ size := by
  intro f
  induction f with
  | zero => intro e he; exact he
  | succ g ih =>
    intro e he
    simp only [extendNwsF]
    split
    · rename_i h
      exact ih (e + 1) (by omega)
    · exact he

lemma extendNws_ge (d : List Nat) (size e : Nat) : e ≤ extendNws d size e :=
  extendNwsF_ge d size (size - e) e

lemma extendNws_le (d : List Nat) (size e : Nat) (h : e ≤ size) :
    extendNws d size e ≤ size :=
  extendNwsF_le d size (size - e) e h

lemma domainScanF_ge (d : List Nat) (size : Nat) :
    ∀ f i, i ≤ (domainScanF d size f i).1 := by
  intro f
  induction f with
  | zero => intro i; exact Nat.le_refl i
  | succ g ih =>
    intro i
    simp only [domainScanF]
    split
    · split
      · exact Nat.le_trans (Nat.le_succ i) (ih (i + 1))
      · split
        · exact Nat.le_trans (Nat.le_succ i) (ih (i + 1))
        · exact Nat.le_refl i
    · exact Nat.le_refl i

lemma domainScanF_le (d : List Nat) (size : Nat) :
    ∀ f i, i ≤ size → (domainScanF d size f i).1 ≤ size := by
  intro f
  induction f with
  | zero => intro i h; exact h
  | succ g ih =>
    intro i h
    simp only [domainScanF]
    split
    · rename_i hi
      split
      · exact ih (i + 1) (by omega)
      · split
        · exact ih (i + 1) (by omega)
        · exact h
    · exact h

/-- The candidate byte class scanned over by `check_domain`. -/
def domChar (c : Nat) : Bool := c = 46 || isalnum c || c = 45

lemma domainScanF_le1 (d : List Nat) (size : Nat) :
    ∀ f i, i ≤ size - 1 → (domainScanF d size f i).1 ≤ size - 1 := by
  intro f
  induction f with
  | zero => intro i h; exact h
  | succ g ih =>
    intro i h
    simp only [domainScanF]
    split
    · rename_i hi
      split
      · exact ih (i + 1) (by omega)
      · split
        · exact ih (i + 1) (by omega)
        · exact h
    · exact h

lemma domainScanF_all (d : List Nat) (size : Nat) :
    ∀ f i, ∀ j, i ≤ j → j < (domainScanF d size f i).1 → domChar (byte d j) = true := by
  intro f
  induction f with
  | zero => intro i j h1 h2; simp only [domainScanF] at h2; omega
  | succ g ih =>
    intro i j h1 h2
    revert h2
    simp only [domainScanF]
    split
    · rename_i hi
      split
      · rename_i hdot
        intro h2
        rcases Nat.lt_or_ge i j with hij | hij
        · exact ih (i + 1) j hij h2
        · have : j = i := by omega
          subst this
          simp [domChar, hdot]
      · split
        · rename_i hdot halnum
          intro h2
          rcases Nat.lt_or_ge i j with hij | hij
          · exact ih (i + 1) j hij h2
          · have : j = i := by omega
            subst this
            simp only [domChar]
            simp only [Bool.or_eq_true, decide_eq_true_eq] at halnum
            rcases halnum with h | h
            · simp [h]
            · simp [h]
        · intro h2; omega
    · intro h2; omega

lemma domainScanF_stop (d : List Nat) (size : Nat) :
    ∀ f i, size - 1 ≤ f + i → (domainScanF d size f i).1 < size - 1 →
      domChar (byte d (domainScanF d size f i).1) = false := by
  intro f
  induction f with
  | zero =>
    intro i hf h
    simp only [domainScanF] at h ⊢
    omega
  | succ g ih =>
    intro i hf h
    revert h
    simp only [domainScanF]
    split
    · rename_i hi
      split
      · intro h; exact ih (i + 1) (by omega) h
      · split
        · intro h; exact ih (i + 1) (by omega) h
        · rename_i hdot hal
          intro h
          have h1 : isalnum (byte d i) = false := by
            cases hq : isalnum (byte d i)
            · rfl
            · exact absurd (by simp [hq]) hal
          have h2 : byte d i ≠ 45 := by
            intro hq
            exact hal (by simp [hq])
          simp [domChar, hdot, h1, h2]
    · intro h; omega

lemma domainScanF_np (d : List Nat) (size : Nat) :
    ∀ f i, (domainScanF d size f i).2 =
      countOcc d 46 i ((domainScanF d size f i).1 - i) := by
  intro f
  induction f with
  | zero => intro i; simp [domainScanF, countOcc]
  | succ g ih =>
    intro i
    by_cases hi : i < size - 1
    · by_cases hdot : byte d i = 46
      · have heq : domainScanF d size (g + 1) i =
            ((domainScanF d size g (i + 1)).1, (domainScanF d size g (i + 1)).2 + 1) := by
          simp only [domainScanF]
          rw [if_pos hi, if_pos hdot]
        rw [heq]
        have hge := domainScanF_ge d size g (i + 1)
        have hlen : (domainScanF d size g (i + 1)).1 - i =
            ((domainScanF d size g (i + 1)).1 - (i + 1)) + 1 := by omega
        rw [hlen]
        simp only [countOcc]
        rw [if_pos hdot, ih (i + 1)]
        omega
      · by_cases hal : (isalnum (byte d i) || decide (byte d i = 45)) = true
        · have heq : domainScanF d size (g + 1) i = domainScanF d size g (i + 1) := by
            simp only [domainScanF]
            rw [if_pos hi, if_neg hdot, if_pos hal]
          rw [heq]
          have hge := domainScanF_ge d size g (i + 1)
          have hlen : (domainScanF d size g (i + 1)).1 - i =
              ((domainScanF d size g (i + 1)).1 - (i + 1)) + 1 := by omega
          rw [hlen]
          simp only [countOcc]
          rw [if_neg hdot, ih (i + 1)]
          omega
        · have heq : domainScanF d size (g + 1) i = (i, 0) := by
            simp only [domainScanF]
            rw [if_pos hi, if_neg hdot, if_neg hal]
          rw [heq]
          simp [countOcc]
    · have heq : domainScanF d size (g + 1) i = (i, 0) := by
        simp only [domainScanF]
        rw [if_neg hi]
      rw [heq]
      simp [countOcc]

end Rinku

namespace Rinku

/-! Lemmas about the email scan. -/

/-- The byte class the email forward scan can step over. -/
def emailChar (c : Nat) : Bool := isalnum c || c = 64 || c = 46 || c = 45 || c = 95

lemma emailScanF_ge (d : List Nat) (size : Nat) :
    ∀ f e, e ≤ (emailScanF d size f e).1 := by
  intro f
  induction f with
  | zero => intro e; exact Nat.le_refl e
  | succ g ih =>
    intro e
    simp only [emailScanF]
    split
    · split
      · exact Nat.le_trans (Nat.le_succ e) (ih (e + 1))
      · split
        · exact Nat.le_trans (Nat.le_succ e) (ih (e + 1))
        · split
          · exact Nat.le_trans (Nat.le_succ e) (ih (e + 1))
          · split
            · exact Nat.le_refl e
            · exact Nat.le_trans (Nat.le_succ e) (ih (e + 1))
    · exact Nat.le_refl e

lemma emailScanF_le (d : List Nat) (size : Nat) :
    ∀ f e, e ≤ size → (emailScanF d size f e).1 ≤ size := by
  intro f
  induction f with
  | zero => intro e h; exact h
  | succ g ih =>
    intro e h
    simp only [emailScanF]
    split
    · rename_i hlt
      split
      · exact ih (e + 1) (by omega)
      · split
        · exact ih (e + 1) (by omega)
        · split
          · exact ih (e + 1) (by omega)
          · split
            · exact h
            · exact ih (e + 1) (by omega)
    · exact h

lemma emailScanF_scanned (d : List Nat) (size : Nat) :
    ∀ f e, ∀ j, e ≤ j → j < (emailScanF d size f e).1 → emailChar (byte d j) = true := by
  intro f
  induction f with
  | zero => intro e j h1 h2; simp only [emailScanF] at h2; omega
  | succ g ih =>
    intro e j h1 h2
    revert h2
    simp only [emailScanF]
    split
    · rename_i hlt
      split
      · rename_i hal
        intro h2
        rcases Nat.lt_or_ge e j with hej | hej
        · exact ih (e + 1) j hej h2
        · have : j = e := by omega
          subst this
          simp [emailChar, hal]
      · split
        · rename_i hat
          intro h2
          rcases Nat.lt_or_ge e j with hej | hej
          · exact ih (e + 1) j hej h2
          · have : j = e := by omega
            subst this
            simp [emailChar, hat]
        · split
          · rename_i hdot
            intro h2
            rcases Nat.lt_or_ge e j with hej | hej
            · exact ih (e + 1) j hej h2
            · have : j = e := by omega
              subst this
              simp [emailChar, hdot.1]
          · split
            · intro h2; omega
            · rename_i hstop
              intro h2
              rcases Nat.lt_or_ge e j with hej | hej
              · exact ih (e + 1) j hej h2
              · have : j = e := by omega
                subst this
                rcases Decidable.not_and_iff_or_not.mp hstop with hq | hq
                · have h45 := not_not.mp hq
                  simp [emailChar, h45]
                · have h95 := not_not.mp hq
                  simp [emailChar, h95]
    · intro h2; omega

lemma emailScanF_amp (d : List Nat) (size : Nat) :
    ∀ f e, 0 < (emailScanF d size f e).2.1 →
      ∃ q, e ≤ q ∧ q < (emailScanF d size f e).1 ∧ byte d q = 64 := by
  intro f
  induction f with
  | zero => intro e h; simp only [emailScanF] at h; omega
  | succ g ih =>
    intro e h
    revert h
    simp only [emailScanF]
    split
    · rename_i hlt
      split
      · intro h
        obtain ⟨q, hq1, hq2, hq3⟩ := ih (e + 1) h
        exact ⟨q, by omega, hq2, hq3⟩
      · split
        · rename_i hal hat
          intro h
          refine ⟨e, Nat.le_refl e, ?_, hat⟩
          exact Nat.lt_of_lt_of_le (Nat.lt_succ_self e) (emailScanF_ge d size g (e + 1))
        · split
          · intro h
            obtain ⟨q, hq1, hq2, hq3⟩ := ih (e + 1) h
            exact ⟨q, by omega, hq2, hq3⟩
          · split
            · intro h; simp at h
            · intro h
              obtain ⟨q, hq1, hq2, hq3⟩ := ih (e + 1) h
              exact ⟨q, by omega, hq2, hq3⟩
    · intro h; simp at h

/-! Lemmas about the delimiter counts and the bracket step. -/

lemma countDelims_ne (d : List Nat) (copen cclose : Nat) (hne : copen ≠ cclose) :
    ∀ len s, countDelims d copen cclose s len =
      (countOcc d copen s len, countOcc d cclose s len) := by
  intro len
  induction len with
  | zero => intro s; rfl
  | succ m ih =>
    intro s
    simp only [countDelims, countOcc]
    rw [ih (s + 1)]
    by_cases h1 : byte d s = copen
    · have h2 : ¬ byte d s = cclose := fun hc => hne (h1.symm.trans hc)
      simp only [if_pos h1, if_neg h2, Prod.mk.injEq]
      omega
    · by_cases h2 : byte d s = cclose
      · simp only [if_neg h1, if_pos h2, Prod.mk.injEq]
        omega
      · simp only [if_neg h1, if_neg h2, Prod.mk.injEq]
        omega

lemma countDelims_same (d : List Nat) (c : Nat) :
    ∀ len s, countDelims d c c s len = (countOcc d c s len, 0) := by
  intro len
  induction len with
  | zero => intro s; rfl
  | succ m ih =>
    intro s
    simp only [countDelims, countOcc]
    rw [ih (s + 1)]
    by_cases h1 : byte d s = c
    · simp only [if_pos h1, Prod.mk.injEq]
      exact ⟨by omega, trivial⟩
    · simp only [if_neg h1, Prod.mk.injEq]
      exact ⟨by omega, trivial⟩

lemma countOcc_pos (d : List Nat) (c : Nat) :
    ∀ len s j, s ≤ j → j < s + len → byte d j = c → 0 < countOcc d c s len := by
  intro len
  induction len with
  | zero => intro s j h1 h2 h3; omega
  | succ m ih =>
    intro s j h1 h2 h3
    simp only [countOcc]
    rcases Nat.eq_or_lt_of_le h1 with he | hlt
    · rw [← he] at h3
      rw [if_pos h3]
      omega
    · have := ih (s + 1) j (by omega) (by omega) h3
      split <;> omega

lemma copenOf_eq_zero (c : Nat) (h34 : c ≠ 34) (h39 : c ≠ 39) (h41 : c ≠ 41)
    (h93 : c ≠ 93) (h125 : c ≠ 125) : copenOf c = 0 := by
  unfold copenOf
  rw [if_neg h34, if_neg h39, if_neg h41, if_neg h93, if_neg h125]

lemma copenOf_of_alpha (c : Nat) (h : isalpha c = true) : copenOf c = 0 := by
  apply copenOf_eq_zero <;>
    (intro hc; subst hc; exact absurd h (by decide))

lemma copenOf_of_alnum_local (c : Nat) (h : (isalnum c || localChar c) = true) :
    copenOf c = 0 := by
  apply copenOf_eq_zero <;>
    (intro hc; subst hc; exact absurd h (by decide))

lemma bracketStep_le (d : List Nat) (s e : Nat) : bracketStep d s e ≤ e := by
  simp only [bracketStep]
  split
  · exact Nat.le_refl e
  · split
    · omega
    · exact Nat.le_refl e

lemma bracketStep_ge (d : List Nat) (s e : Nat) : e - 1 ≤ bracketStep d s e := by
  simp only [bracketStep]
  split
  · omega
  · split
    · exact Nat.le_refl _
    · omega

lemma bracketStep_copen0 (d : List Nat) (s e : Nat)
    (h : copenOf (byte d (e - 1)) = 0) : bracketStep d s e = e := by
  simp only [bracketStep]
  rw [if_pos h]

lemma byte_drop (d : List Nat) (s k : Nat) :
    byte (List.drop s d) k = byte d (s + k) := by
  simp [byte, List.getD_eq_getElem?_getD, List.getElem?_drop]

/-! Structural lemmas about `autolink_delim` under a barrier hypothesis:
position `p` holds a non-alphabetic byte, and no byte of `[s, p]` is a
semicolon, so no character-reference jump can land below `s`. -/

lemma autolink_delim_bounds (d : List Nat) (s e p : Nat) (hse : s ≤ e)
    (hsp : s ≤ p) (hpa : isalpha (byte d p) = false)
    (hsemi : ∀ i, s ≤ i → i ≤ p → byte d i ≠ 59)
    (hcl : copenOf (byte d s) = 0)
    (link : AutolinkPos) (h : autolink_delim d ⟨s, e⟩ = some link) :
    link.start = s ∧ s < link.stop ∧ link.stop ≤ e := by
  simp only [autolink_delim] at h
  split at h
  · cases h
  · rename_i hne
    have h0le : scanLt d s e ≤ e := scanLt_le d s e
    have h0ge : s ≤ scanLt d s e := scanLt_ge d s e hse
    have h1le : trimLoop d s (scanLt d s e) ≤ scanLt d s e :=
      trimLoop_le d s (scanLt d s e)
    have h1ge : s ≤ trimLoop d s (scanLt d s e) :=
      trimLoopF_ge d s p hsp hpa hsemi (scanLt d s e) (scanLt d s e) h0ge
    have h1gt : s < trimLoop d s (scanLt d s e) := by
      rcases Nat.lt_or_ge s (trimLoop d s (scanLt d s e)) with hq | hq
      · exact hq
      · exact absurd (by omega) hne
    cases h
    refine ⟨rfl, ?_, ?_⟩
    · rcases Nat.eq_or_lt_of_le h1gt with he1 | he1
      · have : bracketStep d s (trimLoop d s (scanLt d s e)) =
            trimLoop d s (scanLt d s e) := by
          apply bracketStep_copen0
          rw [← he1]
          simpa using hcl
        simp only [this]
        omega
      · have := bracketStep_ge d s (trimLoop d s (scanLt d s e))
        simp only
        omega
    · have := bracketStep_le d s (trimLoop d s (scanLt d s e))
      simp only
      omega

lemma autolink_delim_isSome (d : List Nat) (s e p : Nat) (hse : s < e)
    (hsp : s < p) (hpa : isalpha (byte d p) = false)
    (hsemi : ∀ i, s ≤ i → i ≤ p → byte d i ≠ 59)
    (htc : trimChar (byte d s) = false) (hlt : byte d s ≠ 60) :
    ∃ link, autolink_delim d ⟨s, e⟩ = some link := by
  have h0 : s + 1 ≤ scanLt d s e := scanLt_gt d s e hse hlt
  have h1 : s < trimLoop d s (scanLt d s e) :=
    trimLoopF_gt d s p hsp hpa hsemi htc (scanLt d s e) (scanLt d s e) (by omega)
  refine ⟨⟨s, bracketStep d s (trimLoop d s (scanLt d s e))⟩, ?_⟩
  simp only [autolink_delim]
  rw [if_neg (by omega)]

end Rinku

namespace Rinku

/-! Concrete buffers used by the examples of the specification. -/

/-- The text `www.foo`. -/
def bufWwwFoo : List Nat := [119, 119, 119, 46, 102, 111, 111]

/-- The text `see www.example.com.`. -/
def bufSee : List Nat :=
  [115, 101, 101, 32, 119, 119, 119, 46, 101, 120, 97, 109, 112, 108, 101, 46, 99, 111, 109, 46]

/-- The text `xwww.example.com`. -/
def bufXwww : List Nat :=
  [120, 119, 119, 119, 46, 101, 120, 97, 109, 112, 108, 101, 46, 99, 111, 109]

/-- The text `contact me at a.b@example.com.`. -/
def bufContact : List Nat :=
  [99, 111, 110, 116, 97, 99, 116, 32, 109, 101, 32, 97, 116, 32, 97, 46, 98, 64,
   101, 120, 97, 109, 112, 108, 101, 46, 99, 111, 109, 46]

/-- The text `@example.com`. -/
def bufAt : List Nat := [64, 101, 120, 97, 109, 112, 108, 101, 46, 99, 111, 109]

/-- The text `(http://example.com/foo)`. -/
def bufParen : List Nat :=
  [40, 104, 116, 116, 112, 58, 47, 47, 101, 120, 97, 109, 112, 108, 101, 46, 99,
   111, 109, 47, 102, 111, 111, 41]

/-- The text `http://example.com/foo_(bar)`. -/
def bufWiki : List Nat :=
  [104, 116, 116, 112, 58, 47, 47, 101, 120, 97, 109, 112, 108, 101, 46, 99, 111,
   109, 47, 102, 111, 111, 95, 40, 98, 97, 114, 41]

/-- The text `http://example.com&amp;`. -/
def bufAmp : List Nat :=
  [104, 116, 116, 112, 58, 47, 47, 101, 120, 97, 109, 112, 108, 101, 46, 99, 111,
   109, 38, 97, 109, 112, 59]

/-- The text `HTTP://x`. -/
def bufHTTPx : List Nat := [72, 84, 84, 80, 58, 47, 47, 120]

/-- The text `http://` with nothing after the scheme. -/
def bufHttpOnly : List Nat := [104, 116, 116, 112, 58, 47, 47]

/-- The text `httpx`. -/
def bufHttpx : List Nat := [104, 116, 116, 112, 120]

/-- The text `http://a.b`. -/
def bufHttpab : List Nat := [104, 116, 116, 112, 58, 47, 47, 97, 46, 98]

/-- The text `a.)`. -/
def bufADotParen : List Nat := [97, 46, 41]

/-- The text `a"`. -/
def bufAQuote : List Nat := [97, 34]

/-- Predicate written from the spec's words for claim C9: the slice
begins, ASCII case-insensitively, with one of the whitelisted strings, is
strictly longer than it, and the byte immediately after it is
alphanumeric. -/
def safeSpec (link : List Nat) (link_len : Nat) : Prop :=
  ∃ p ∈ safeURIs,
    (∀ k, k < p.length → tolower (byte link k) = tolower (byte p k)) ∧
      p.length < link_len ∧ isalnum (byte link p.length) = true

/-- C9: `is_safe_prefix` returns true exactly when the slice begins,
ASCII case-insensitively, with one of `/`, `http://`, `https://`,
`ftp://`, `mailto:`, the length is strictly greater than that of the
matched string, and the byte immediately after it is alphanumeric;
`HTTP://x` is accepted while `http://` and `httpx` are rejected. -/
theorem issafe_contract (link : List Nat) (link_len : Nat) :
    (autolink_issafe link link_len = true ↔ safeSpec link link_len)
    ∧ autolink_issafe bufHTTPx 8 = true
    ∧ autolink_issafe bufHttpOnly 7 = false
    ∧ autolink_issafe bufHttpx 5 = false := by
  refine ⟨⟨?_, ?_⟩, by decide, by decide, by decide⟩
  · intro h
    simp only [autolink_issafe, matchCI] at h
    rcases List.any_eq_true.mp h with ⟨p, hp, hcond⟩
    rw [Bool.and_eq_true, Bool.and_eq_true] at hcond
    obtain ⟨⟨hlen, hmatch⟩, halnum⟩ := hcond
    refine ⟨p, hp, ?_, of_decide_eq_true hlen, halnum⟩
    intro k hk
    have := List.all_eq_true.mp hmatch k (List.mem_range.mpr hk)
    simpa using this
  · rintro ⟨p, hp, hmatch, hlen, halnum⟩
    simp only [autolink_issafe, matchCI]
    apply List.any_eq_true.mpr
    refine ⟨p, hp, ?_⟩
    rw [Bool.and_eq_true, Bool.and_eq_true]
    refine ⟨⟨decide_eq_true hlen, ?_⟩, halnum⟩
    apply List.all_eq_true.mpr
    intro k hk
    simpa using hmatch k (List.mem_range.mp hk)

/-- C10: `match_www` succeeds on `www.foo` (trigger at offset 0) with the
span `[0, 7)` even though no dot occurs after the `www.` literal: the
domain validation starts at the first `w` and the dot of `www.` itself is
the one counted dot. -/
theorem www_dotless_domain :
    autolink__www bufWwwFoo 0 7 0 = some ⟨0, 7⟩
    ∧ (domainScan bufWwwFoo 7 1).2 = 1 := by decide

/-- C6: `match_www` fails when the preceding byte is neither punctuation
nor whitespace, fails when fewer than 4 bytes remain or the bytes at the
trigger are not exactly `www.`; on `see www.example.com.` (trigger 4) it
matches `www.example.com`, and on `xwww.example.com` (trigger 1) it
fails. -/
theorem www_matcher_contract (d : List Nat) (pos size flags : Nat) :
    (0 < pos → ispunct (byte d (pos - 1)) = false → isspace (byte d (pos - 1)) = false →
      autolink__www d pos size flags = none)
    ∧ (size - pos < 4 ∨
        ¬(byte d pos = 119 ∧ byte d (pos + 1) = 119 ∧ byte d (pos + 2) = 119 ∧
          byte d (pos + 3) = 46) →
        autolink__www d pos size flags = none)
    ∧ autolink__www bufSee 4 20 0 = some ⟨4, 19⟩
    ∧ autolink__www bufXwww 1 16 0 = none := by
  refine ⟨?_, ?_, by decide, by decide⟩
  · intro h1 h2 h3
    simp only [autolink__www]
    rw [if_pos ⟨h1, h2, h3⟩]
  · intro hbad
    simp only [autolink__www]
    by_cases hprev : 0 < pos ∧ ispunct (byte d (pos - 1)) = false ∧
        isspace (byte d (pos - 1)) = false
    · rw [if_pos hprev]
    · rw [if_neg hprev, if_pos hbad]

/-- C7: `match_email` fails when the backward walk does not move the start
at all; on success the span is at least 2 bytes long, exactly one `@` and
at least one qualifying dot were counted by the forward scan; on
`contact me at a.b@example.com.` (trigger 17) it matches `a.b@example.com`
and on `@example.com` (trigger 0) it fails. -/
theorem email_matcher_contract (d : List Nat) (pos size flags : Nat) :
    (emailStart d pos = pos → autolink__email d pos size flags = none)
    ∧ (∀ link, autolink__email d pos size flags = some link →
        emailStart d pos < pos ∧
        2 ≤ (emailScan d size pos).1 - emailStart d pos ∧
        (emailScan d size pos).2.1 = 1 ∧
        0 < (emailScan d size pos).2.2)
    ∧ autolink__email bufContact 17 30 0 = some ⟨14, 29⟩
    ∧ autolink__email bufAt 0 12 0 = none := by
  refine ⟨?_, ?_, by decide, by decide⟩
  · intro h
    simp only [autolink__email]
    rw [if_pos h]
  · intro link h
    simp only [autolink__email] at h
    split at h
    · cases h
    · rename_i hne
      split at h
      · cases h
      · rename_i hguard
        push_neg at hguard
        obtain ⟨hg1, hg2, hg3⟩ := hguard
        have hle := emailStart_le d pos
        have hge := emailScanF_ge d size (size - pos) pos
        refine ⟨by omega, ?_, hg2, by omega⟩
        have : pos ≤ (emailScan d size pos).1 := hge
        omega

end Rinku

namespace Rinku

lemma domainScanF_stuck (d : List Nat) (size : Nat) :
    ∀ f i, size - 1 ≤ i → domainScanF d size f i = (i, 0) := by
  intro f i hi
  cases f with
  | zero => rfl
  | succ g =>
    simp only [domainScanF]
    rw [if_neg (by omega)]

/-- C5 counterexample: on the buffer `HTTP://x` of length 8, the hostname
start handed to `check_domain` by the URL matcher is offset 7 = length - 1;
the scan loop `for (i = start + 1; i < size - 1; ++i)` performs no
iterations and `end` is set to `start + 1 = 8 = length`, not to a
stopping offset at or below `length - 1` as the claim states, and with
short domains allowed the validator succeeds.  `autolink__url` reaches
exactly this call and succeeds with the span `[0, 8)`. -/
theorem check_domain_end_cex :
    check_domain bufHTTPx 8 ⟨7, 0⟩ true = some 8
    ∧ ¬ (8 : Nat) ≤ 8 - 1
    ∧ autolink__url bufHTTPx 4 8 1 = some ⟨0, 8⟩ := by decide

/-- C5 (amended): the Domain Validator fails if the first byte is not
alphanumeric; otherwise its scan runs only while the index is below
`length - 1`, so when `start + 2 ≤ length` it sets the end to the offset
of the first byte at or after `start + 1` that is neither alphanumeric
nor `-` nor `.`, or to `length - 1` if every byte up to there qualifies
(the final byte is never scanned), while for `start = length - 1` the
scan performs no iterations and the end is set to `start + 1 = length`.
It counts the dots it passed, succeeds unconditionally with short
domains allowed, and exactly when a dot was counted otherwise. -/
theorem check_domain_contract (d : List Nat) (size s : Nat) (short : Bool) :
    (isalnum (byte d s) = false → check_domain d size ⟨s, 0⟩ short = none)
    ∧ (isalnum (byte d s) = true →
        s + 1 ≤ (domainScan d size (s + 1)).1
        ∧ (s + 2 ≤ size → (domainScan d size (s + 1)).1 ≤ size - 1)
        ∧ (∀ j, s + 1 ≤ j → j < (domainScan d size (s + 1)).1 → domChar (byte d j) = true)
        ∧ ((domainScan d size (s + 1)).1 < size - 1 →
            domChar (byte d (domainScan d size (s + 1)).1) = false)
        ∧ (domainScan d size (s + 1)).2 =
            countOcc d 46 (s + 1) ((domainScan d size (s + 1)).1 - (s + 1))
        ∧ (s + 1 = size → (domainScan d size (s + 1)).1 = size)
        ∧ (short = true →
            check_domain d size ⟨s, 0⟩ short = some (domainScan d size (s + 1)).1)
        ∧ (short = false →
            check_domain d size ⟨s, 0⟩ short =
              if 0 < (domainScan d size (s + 1)).2
              then some (domainScan d size (s + 1)).1 else none)) := by
  constructor
  · intro h
    simp only [check_domain]
    rw [if_neg (by simp [h])]
  · intro h
    refine ⟨domainScanF_ge d size size (s + 1),
            fun hin => domainScanF_le1 d size size (s + 1) (by omega),
            domainScanF_all d size size (s + 1),
            domainScanF_stop d size size (s + 1) (by omega),
            domainScanF_np d size size (s + 1), ?_, ?_, ?_⟩
    · intro hs
      rw [hs]
      show (domainScanF d size size size).1 = size
      rw [domainScanF_stuck d size size size (by omega)]
    · intro hs
      subst hs
      simp only [check_domain]
      rw [if_pos h]
      simp
    · intro hs
      subst hs
      simp only [check_domain]
      rw [if_pos h]
      simp

/-- C5 witness: the contract evaluated on the hostname part of
`http://a.b` with short domains disallowed, and on the length-exceeding
stop of `HTTP://x` at hostname start 7. -/
theorem check_domain_contract_witness :
    (check_domain bufHttpab 10 ⟨7, 0⟩ false =
        if 0 < (domainScan bufHttpab 10 (7 + 1)).2
        then some (domainScan bufHttpab 10 (7 + 1)).1 else none)
    ∧ (domainScan bufHTTPx 8 (7 + 1)).1 = 8 :=
  ⟨((check_domain_contract bufHttpab 10 7 false).2 (by decide)).2.2.2.2.2.2.2 rfl,
   ((check_domain_contract bufHTTPx 8 7 true).2 (by decide)).2.2.2.2.2.1 rfl⟩

/-- C2 counterexample: on the two-byte buffer `a"` the final byte of the
span `[0, 2)` is the double quote, whose corresponding opener is the same
double-quote character, so the count of the opener inside the span
trivially equals the count of the closer; the claim therefore predicts
that the end is left unchanged, but `autolink_delim` drops the quote
(the counting loop counts every quote as an opening and none as a
closing, so the two counters always differ). -/
theorem bracket_quote_cex :
    autolink_delim bufAQuote ⟨0, 2⟩ = some ⟨0, 1⟩
    ∧ autolink_delim bufAQuote ⟨0, 2⟩ ≠ some ⟨0, 2⟩ := by decide

/-- C2 (amended): after the trimming loop, if the final byte is `)`, `]`
or `}` the bracket step decrements the end by exactly one when the counts
of the corresponding opener and of the closer inside the span differ and
leaves it unchanged when they are equal; if the final byte is `"` or `'`,
every occurrence is counted as an opener and none as a closer, so the
final quote is always dropped.  The rule fires at most once.
`(http://example.com/foo)` keeps the span short of the trailing `)` while
`http://example.com/foo_(bar)` retains it. -/
theorem bracket_balance_rule (d : List Nat) (s e : Nat) (h : s < e) :
    ((byte d (e - 1) = 41 ∨ byte d (e - 1) = 93 ∨ byte d (e - 1) = 125) →
      bracketStep d s e =
        if countOcc d (copenOf (byte d (e - 1))) s (e - s) =
            countOcc d (byte d (e - 1)) s (e - s)
        then e else e - 1)
    ∧ ((byte d (e - 1) = 34 ∨ byte d (e - 1) = 39) → bracketStep d s e = e - 1)
    ∧ autolink__url bufParen 5 24 0 = some ⟨1, 23⟩
    ∧ autolink__url bufWiki 4 28 0 = some ⟨0, 28⟩ := by
  refine ⟨?_, ?_, by decide, by decide⟩
  · intro hc
    have hne : copenOf (byte d (e - 1)) ≠ byte d (e - 1) := by
      rcases hc with hc | hc | hc <;> rw [hc] <;> decide
    have hnz : ¬ copenOf (byte d (e - 1)) = 0 := by
      rcases hc with hc | hc | hc <;> rw [hc] <;> decide
    simp only [bracketStep]
    rw [if_neg hnz, countDelims_ne d _ _ hne (e - s) s]
    by_cases heq : countOcc d (copenOf (byte d (e - 1))) s (e - s) =
        countOcc d (byte d (e - 1)) s (e - s)
    · rw [if_pos heq]
      split
      · rename_i hno
        exfalso
        simp only at hno
        exact hno heq.symm
      · rfl
    · rw [if_neg heq]
      split
      · rfl
      · rename_i hno
        exfalso
        simp only at hno
        exact heq (Classical.not_not.mp hno).symm
  · intro hc
    have hcc : copenOf (byte d (e - 1)) = byte d (e - 1) := by
      rcases hc with hc | hc <;> rw [hc] <;> rfl
    have hnz : ¬ copenOf (byte d (e - 1)) = 0 := by
      rcases hc with hc | hc <;> rw [hc] <;> decide
    have hpos : 0 < countOcc d (byte d (e - 1)) s (e - s) :=
      countOcc_pos d _ (e - s) s (e - 1) (by omega) (by omega) rfl
    simp only [bracketStep]
    rw [if_neg hnz, hcc, countDelims_same d _ (e - s) s]
    split
    · rfl
    · rename_i hno
      exfalso
      simp only at hno
      exact absurd (Classical.not_not.mp hno).symm (by omega)

/-- C2 witness: the amended rule applied to the span `[0, 2)` of the
buffer `a"`. -/
theorem bracket_balance_rule_witness :
    (0 : Nat) < 2 ∧ bracketStep bufAQuote 0 2 = 2 - 1 :=
  ⟨by decide, (bracket_balance_rule bufAQuote 0 2 (by decide)).2.1 (Or.inl (by decide))⟩

/-- C3 counterexample: on the buffer `a.)` the trimmer maps the span
`[0, 3)` to `[0, 2)` (the unbalanced `)` is dropped by the bracket step,
exposing a trailing `.`), and a second run on `[0, 2)` trims further to
`[0, 1)`, so running the trimmer on its own output changed the span. -/
theorem delim_idempotent_cex :
    autolink_delim bufADotParen ⟨0, 3⟩ = some ⟨0, 2⟩
    ∧ autolink_delim bufADotParen ⟨0, 2⟩ = some ⟨0, 1⟩
    ∧ autolink_delim bufADotParen ⟨0, 2⟩ ≠ some ⟨0, 2⟩ := by decide

/-- C3 (amended): re-running the Delimiter Trimmer on its own output
returns the same span unchanged, provided the bracket-balance step did
not change the end on the first run (when that step drops a byte it can
expose a new trailing punctuation byte that a second run trims). -/
theorem delim_idempotent (d : List Nat) (link S : AutolinkPos)
    (h : autolink_delim d link = some S)
    (hnb : S.stop = trimLoop d link.start (scanLt d link.start link.stop)) :
    autolink_delim d S = some S := by
  simp only [autolink_delim] at h
  split at h
  · cases h
  · rename_i hne
    cases h
    simp only at hnb
    rw [hnb]
    have hno : ∀ j, link.start ≤ j →
        j < trimLoop d link.start (scanLt d link.start link.stop) → byte d j ≠ 60 := by
      intro j h1 h2
      exact scanLt_no_lt d link.start link.stop j h1
        (Nat.lt_of_lt_of_le h2 (trimLoop_le d link.start (scanLt d link.start link.stop)))
    have hscan : scanLt d link.start
        (trimLoop d link.start (scanLt d link.start link.stop)) =
        trimLoop d link.start (scanLt d link.start link.stop) :=
      scanLt_all d link.start _ hno
    have htrim : trimLoop d link.start
        (trimLoop d link.start (scanLt d link.start link.stop)) =
        trimLoop d link.start (scanLt d link.start link.stop) :=
      trimLoop_done_fix d link.start _
        (trimLoopF_done d link.start (scanLt d link.start link.stop)
          (scanLt d link.start link.stop) (Nat.le_refl _))
    simp only [autolink_delim, hscan, htrim]
    rw [if_neg hne, hnb]

/-- C3 witness: the amended idempotence applied to the single-byte
buffer `a`. -/
theorem delim_idempotent_witness :
    autolink_delim ([97] : List Nat) ⟨0, 1⟩ = some ⟨0, 1⟩ :=
  delim_idempotent [97] ⟨0, 1⟩ ⟨0, 1⟩ (by decide) (by decide)

/-- C4: when the span's final byte is a semicolon, the loop walks
backward over alphabetic bytes from `end - 2`; if it stops on an `&`
strictly before `end - 2` the end is set to that offset (dropping the
whole character reference), otherwise the end is decremented by one; on
`http://example.com&amp;` the matched span covers exactly
`http://example.com`.  (The C source computes `end - 2` in `size_t`; for
`end = 1` that underflows and reads out of bounds, so the claim is
settled for `end ≥ 2`.) -/
theorem semicolon_rule (d : List Nat) (s e : Nat) (h2 : 2 ≤ e) (hse : s < e)
    (hsemi : byte d (e - 1) = 59) :
    walkAmp d (e - 2) ≤ e - 2
    ∧ (walkAmp d (e - 2) = 0 ∨ isalpha (byte d (walkAmp d (e - 2))) = false)
    ∧ (∀ j, walkAmp d (e - 2) < j → j ≤ e - 2 → isalpha (byte d j) = true)
    ∧ trimLoop d s e =
        (if walkAmp d (e - 2) < e - 2 ∧ byte d (walkAmp d (e - 2)) = 38
         then trimLoop d s (walkAmp d (e - 2))
         else trimLoop d s (e - 1))
    ∧ autolink__url bufAmp 4 23 0 = some ⟨0, 18⟩ := by
  refine ⟨walkAmp_le d (e - 2), walkAmp_stop d (e - 2), walkAmp_between d (e - 2),
    ?_, by decide⟩
  rw [trimLoop_eq d s e hse, hsemi]
  rw [if_neg (by decide : ¬ trimChar 59 = true), if_pos rfl]

/-- C4 witness: the semicolon rule evaluated at the end of the buffer
`http://example.com&amp;`. -/
theorem semicolon_rule_witness :
    trimLoop bufAmp 0 23 =
      (if walkAmp bufAmp (23 - 2) < 23 - 2 ∧ byte bufAmp (walkAmp bufAmp (23 - 2)) = 38
       then trimLoop bufAmp 0 (walkAmp bufAmp (23 - 2))
       else trimLoop bufAmp 0 (23 - 1)) :=
  (semicolon_rule bufAmp 0 23 (by decide) (by decide) (by decide)).2.2.2.1

end Rinku

namespace Rinku

/-! Auxiliary facts for the URL and WWW matcher proofs. -/

lemma trimChar_of_alpha (c : Nat) (h : isalpha c = true) : trimChar c = false := by
  have hr : (65 ≤ c ∧ c ≤ 90) ∨ (97 ≤ c ∧ c ≤ 122) := by
    simpa [isalpha, Bool.or_eq_true, Bool.and_eq_true, decide_eq_true_eq] using h
  have h63 : c ≠ 63 := by omega
  have h33 : c ≠ 33 := by omega
  have h46 : c ≠ 46 := by omega
  have h44 : c ≠ 44 := by omega
  have h58 : c ≠ 58 := by omega
  have h0 : c ≠ 0 := by omega
  simp [trimChar, h63, h33, h44, h46, h58, h0]

lemma ne60_of_alpha (c : Nat) (h : isalpha c = true) : c ≠ 60 := by
  intro hq
  subst hq
  exact absurd h (by decide)

lemma matchCI_head_ne (l p : List Nat) (h0 : 0 < p.length)
    (hne : tolower (byte l 0) ≠ tolower (byte p 0)) : matchCI l p = false := by
  cases hm : matchCI l p
  · rfl
  · exfalso
    apply hne
    simp only [matchCI] at hm
    have := List.all_eq_true.mp hm 0 (List.mem_range.mpr h0)
    simpa using this

lemma issafe_colon_false (l : List Nat) (L : Nat) (h : byte l 0 = 58) :
    autolink_issafe l L = false := by
  cases hq : autolink_issafe l L
  · rfl
  · exfalso
    simp only [autolink_issafe] at hq
    rcases List.any_eq_true.mp hq with ⟨p, hp, hcond⟩
    rw [Bool.and_eq_true, Bool.and_eq_true] at hcond
    obtain ⟨⟨_, hmatch⟩, _⟩ := hcond
    simp only [safeURIs, List.mem_cons, List.not_mem_nil, or_false] at hp
    rcases hp with h5 | h5 | h5 | h5 | h5 <;> subst h5 <;>
      (rw [matchCI_head_ne l _ (by decide) (by rw [h]; decide)] at hmatch ;
       exact Bool.false_ne_true hmatch)

lemma check_domain_some (d : List Nat) (size t : Nat) (b : Bool) (e0 : Nat)
    (h : check_domain d size ⟨t, 0⟩ b = some e0) :
    t + 1 ≤ e0 ∧ (t + 1 ≤ size → e0 ≤ size) := by
  simp only [check_domain] at h
  split at h
  · split at h
    · injection h with h1
      subst h1
      exact ⟨domainScanF_ge d size size (t + 1),
        fun hs => domainScanF_le d size size (t + 1) hs⟩
    · split at h
      · injection h with h1
        subst h1
        exact ⟨domainScanF_ge d size size (t + 1),
          fun hs => domainScanF_le d size size (t + 1) hs⟩
      · cases h
  · cases h

/-- C8: `match_url` (with the asserted precondition that the trigger byte
is a colon) succeeds only when at least 4 bytes remain and the two bytes
after the colon are slashes; once domain validation has succeeded, the
match fails exactly when the Protocol Safety Checker rejects the slice
starting at the rewound start, and otherwise returns the Delimiter
Trimmer's result on the span extended over non-whitespace. -/
theorem url_matcher_contract (d : List Nat) (pos size flags : Nat)
    (hc : byte d pos = 58) :
    (∀ link, autolink__url d pos size flags = some link →
      4 ≤ size - pos ∧ byte d (pos + 1) = 47 ∧ byte d (pos + 2) = 47)
    ∧ (∀ e0, 4 ≤ size - pos → byte d (pos + 1) = 47 → byte d (pos + 2) = 47 →
        check_domain d size ⟨pos + 3, 0⟩ (allowShort flags) = some e0 →
        (autolink_issafe (List.drop (urlStart d pos) d) (size - urlStart d pos) = false →
          autolink__url d pos size flags = none)
        ∧ (autolink_issafe (List.drop (urlStart d pos) d) (size - urlStart d pos) = true →
            ∃ link, autolink__url d pos size flags = some link ∧
              autolink_delim d ⟨urlStart d pos, extendNws d size e0⟩ = some link)) := by
  constructor
  · intro link h
    simp only [autolink__url] at h
    split at h
    · cases h
    · rename_i hguard
      push_neg at hguard
      obtain ⟨hg1, hg2, hg3⟩ := hguard
      exact ⟨by omega, hg2, hg3⟩
  · intro e0 hsz h1 h2 hcd
    have hguard : ¬(size - pos < 4 ∨ byte d (pos + 1) ≠ 47 ∨ byte d (pos + 2) ≠ 47) := by
      push_neg
      exact ⟨by omega, h1, h2⟩
    constructor
    · intro hsafe
      simp only [autolink__url]
      rw [if_neg hguard, hcd]
      show (if autolink_issafe (List.drop (urlStart d pos) d)
              (size - urlStart d pos) = true
            then autolink_delim d ⟨urlStart d pos, extendNws d size e0⟩
            else none) = none
      rw [if_neg (by simp [hsafe])]
    · intro hsafe
      have hsle := urlStart_le d pos
      have hslt : urlStart d pos < pos := by
        rcases Nat.eq_or_lt_of_le hsle with he | hlt
        · exfalso
          have hq : byte (List.drop (urlStart d pos) d) 0 = 58 := by
            rw [byte_drop, he, Nat.add_zero]
            exact hc
          rw [issafe_colon_false _ _ hq] at hsafe
          exact Bool.false_ne_true hsafe
        · exact hlt
      have halpha : isalpha (byte d (urlStart d pos)) = true :=
        urlStart_all d pos (urlStart d pos) (Nat.le_refl _) hslt
      obtain ⟨he1, _⟩ := check_domain_some d size (pos + 3) (allowShort flags) e0 hcd
      have hx := extendNws_ge d size e0
      obtain ⟨link, hlink⟩ := autolink_delim_isSome d (urlStart d pos)
        (extendNws d size e0) (pos + 2) (by omega) (by omega)
        (by rw [h2]; decide)
        (fun i hi1 hi2 => by
          rcases (by omega : i < pos ∨ i = pos ∨ i = pos + 1 ∨ i = pos + 2)
            with hi | hi | hi | hi
          · have hal := urlStart_all d pos i hi1 hi
            intro hq
            rw [hq] at hal
            exact absurd hal (by decide)
          · rw [hi, hc]; decide
          · rw [hi, h1]; decide
          · rw [hi, h2]; decide)
        (trimChar_of_alpha _ halpha) (ne60_of_alpha _ halpha)
      refine ⟨link, ?_, hlink⟩
      simp only [autolink__url]
      rw [if_neg hguard, hcd]
      show (if autolink_issafe (List.drop (urlStart d pos) d)
              (size - urlStart d pos) = true
            then autolink_delim d ⟨urlStart d pos, extendNws d size e0⟩
            else none) = some link
      rw [if_pos hsafe]
      exact hlink

/-- C8 witness: the contract evaluated on `http://a.b` at the colon. -/
theorem url_matcher_contract_witness :
    ∃ link, autolink__url bufHttpab 4 10 0 = some link ∧
      autolink_delim bufHttpab ⟨urlStart bufHttpab 4, extendNws bufHttpab 10 9⟩ =
        some link :=
  ((url_matcher_contract bufHttpab 4 10 0 (by decide)).2 9 (by decide) (by decide)
    (by decide) (by decide)).2 (by decide)

end Rinku

namespace Rinku

/-- C1: for every buffer, trigger position and flags, a successful match
by `match_www`, `match_email` or `match_url` (the latter under its
asserted colon precondition) returns a span with
`0 ≤ start < stop ≤ length`; in particular the stop stays strictly above
the start through the angle-bracket truncation, the trimming loop and the
bracket-balance step. -/
theorem matched_span_bounds (d : List Nat) (pos flags : Nat) (link : AutolinkPos)
    (h : autolink__www d pos d.length flags = some link
       ∨ autolink__email d pos d.length flags = some link
       ∨ (byte d pos = 58 ∧ autolink__url d pos d.length flags = some link)) :
    link.start < link.stop ∧ link.stop ≤ d.length := by
  rcases h with h | h | ⟨hc, h⟩
  · -- the WWW matcher
    simp only [autolink__www] at h
    split at h
    · cases h
    · split at h
      · cases h
      · rename_i hprev hguard
        push_neg at hguard
        obtain ⟨hsz, hw0, hw1, hw2, hw3⟩ := hguard
        rcases hcdq : check_domain d d.length ⟨pos, 0⟩ false with _ | e
        · rw [hcdq] at h
          exact Option.noConfusion h
        · rw [hcdq] at h
          have h' : autolink_delim d ⟨pos, extendNws d d.length e⟩ = some link := h
          obtain ⟨he1, he2c⟩ := check_domain_some d d.length pos false e hcdq
          have he2 : e ≤ d.length := he2c (by omega)
          have hx1 : e ≤ extendNws d d.length e := extendNws_ge d d.length e
          have hx2 : extendNws d d.length e ≤ d.length := extendNws_le d d.length e he2
          have hb := autolink_delim_bounds d pos (extendNws d d.length e) (pos + 3)
            (by omega) (by omega) (by rw [hw3]; decide)
            (fun i hi1 hi2 => by
              rcases (by omega : i = pos ∨ i = pos + 1 ∨ i = pos + 2 ∨ i = pos + 3)
                with hi | hi | hi | hi
              · rw [hi, hw0]; decide
              · rw [hi, hw1]; decide
              · rw [hi, hw2]; decide
              · rw [hi, hw3]; decide)
            (by rw [hw0]; decide)
            link h'
          obtain ⟨hstart, hlt, hle⟩ := hb
          exact ⟨by omega, by omega⟩
  · -- the email matcher
    simp only [autolink__email] at h
    split at h
    · cases h
    · rename_i hne
      split at h
      · cases h
      · rename_i hguard
        push_neg at hguard
        obtain ⟨hg1, hg2, hg3⟩ := hguard
        have hsle := emailStart_le d pos
        have hslt : emailStart d pos < pos := by
          rcases Nat.eq_or_lt_of_le hsle with he | hlt
          · exact absurd he hne
          · exact hlt
        have hge : pos ≤ (emailScan d d.length pos).1 :=
          emailScanF_ge d d.length (d.length - pos) pos
        have hpos_lt : pos < d.length := by
          by_contra hq
          push_neg at hq
          have hz : emailScan d d.length pos = (pos, 0, 0) := by
            unfold emailScan
            rw [Nat.sub_eq_zero_of_le hq]
            rfl
          rw [hz] at hg1
          simp at hg1
        have hle_scan : (emailScan d d.length pos).1 ≤ d.length :=
          emailScanF_le d d.length (d.length - pos) pos (by omega)
        obtain ⟨q, hq1, hq2, hq3⟩ :
            ∃ q, pos ≤ q ∧ q < (emailScan d d.length pos).1 ∧ byte d q = 64 :=
          emailScanF_amp d d.length (d.length - pos) pos
            (show 0 < (emailScan d d.length pos).2.1 by omega)
        have hb := autolink_delim_bounds d (emailStart d pos)
          (emailScan d d.length pos).1 q
          (by omega) (by omega) (by rw [hq3]; decide)
          (fun i hi1 hi2 => by
            rcases Nat.lt_or_ge i pos with hi | hi
            · have hal := emailStart_all d pos i hi1 hi
              intro hq59
              rw [hq59] at hal
              exact absurd hal (by decide)
            · have hsc : emailChar (byte d i) = true :=
                emailScanF_scanned d d.length (d.length - pos) pos i hi
                  (show i < (emailScan d d.length pos).1 by omega)
              intro hq59
              rw [hq59] at hsc
              exact absurd hsc (by decide))
          (copenOf_of_alnum_local _
            (emailStart_all d pos (emailStart d pos) (Nat.le_refl _) hslt))
          link h
        obtain ⟨hstart, hlt, hle⟩ := hb
        exact ⟨by omega, by omega⟩
  · -- the URL matcher
    simp only [autolink__url] at h
    split at h
    · cases h
    · rename_i hguard
      push_neg at hguard
      obtain ⟨hsz, h1, h2⟩ := hguard
      rcases hcdq : check_domain d d.length ⟨pos + 3, 0⟩ (allowShort flags) with _ | e
      · rw [hcdq] at h
        exact Option.noConfusion h
      · rw [hcdq] at h
        have h' : (if autolink_issafe (List.drop (urlStart d pos) d)
              (d.length - urlStart d pos) = true
            then autolink_delim d ⟨urlStart d pos, extendNws d d.length e⟩
            else none) = some link := h
        split at h'
        · rename_i hsafe
          obtain ⟨he1, he2c⟩ :=
            check_domain_some d d.length (pos + 3) (allowShort flags) e hcdq
          have hsle := urlStart_le d pos
          have he2 : e ≤ d.length := he2c (by omega)
          have hx1 : e ≤ extendNws d d.length e := extendNws_ge d d.length e
          have hx2 : extendNws d d.length e ≤ d.length := extendNws_le d d.length e he2
          have hb := autolink_delim_bounds d (urlStart d pos)
            (extendNws d d.length e) (pos + 2)
            (by omega) (by omega) (by rw [h2]; decide)
            (fun i hi1 hi2 => by
              rcases (by omega : i < pos ∨ i = pos ∨ i = pos + 1 ∨ i = pos + 2)
                with hi | hi | hi | hi
              · have hal := urlStart_all d pos i hi1 hi
                intro hq
                rw [hq] at hal
                exact absurd hal (by decide)
              · rw [hi, hc]; decide
              · rw [hi, h1]; decide
              · rw [hi, h2]; decide)
            (by
              rcases Nat.eq_or_lt_of_le hsle with heq | hlt
              · rw [heq, hc]; decide
              · exact copenOf_of_alpha _
                  (urlStart_all d pos (urlStart d pos) (Nat.le_refl _) hlt))
            link h'
          obtain ⟨hstart, hlt2, hle2⟩ := hb
          exact ⟨by omega, by omega⟩
        · cases h'

/-- C1 witness: the bounds applied to the WWW match on `www.foo`. -/
theorem matched_span_bounds_witness :
    autolink__www bufWwwFoo 0 bufWwwFoo.length 0 = some ⟨0, 7⟩
    ∧ (⟨0, 7⟩ : AutolinkPos).start < (⟨0, 7⟩ : AutolinkPos).stop
    ∧ (⟨0, 7⟩ : AutolinkPos).stop ≤ bufWwwFoo.length :=
  ⟨by decide, matched_span_bounds bufWwwFoo 0 0 ⟨0, 7⟩ (Or.inl (by decide))⟩

/-- C6 witness: the preceding-byte rule applied to `xwww.example.com`. -/
theorem www_matcher_contract_witness :
    autolink__www bufXwww 1 16 0 = none :=
  (www_matcher_contract bufXwww 1 16 0).1 (by decide) (by decide) (by decide)

/-- C7 witness: the empty-local-part rule applied to `@example.com`. -/
theorem email_matcher_contract_witness :
    autolink__email bufAt 0 12 0 = none :=
  (email_matcher_contract bufAt 0 12 0).1 rfl

end Rinku
